import Mathlib

/-!
# Verification of the remarkup HTML attribute reconciler

Shallow embedding of the remarkup library (`lib/remarkup.js`, jsdom revision;
the cheerio port is behaviourally identical on the verified fragments).
Elements are tag name + ordered attribute list + child elements, decorated
with the positional data the reconciler obtains through `indexOf` /
`parentNode.children.length` (`idx`, `siblingCount`).  Costs are real
numbers; `Math.log` is a parameter `log : ℕ → ℝ` (it is only ever applied
to natural numbers: a Levenshtein distance or a positional distance) and is
instantiated with `Real.log` in the claim-facing theorems.
-/

namespace ReMarkup

/-- One HTML element as seen by the reconciler: tag name, ordered attribute
(name, value) list, child *elements* (jsdom `children`), plus the positional
decoration used by `reMarkup`: `idx` is the element's position in the
document-order flattened element list of its tree (`origElements.indexOf` /
`modElements.indexOf`) and `siblingCount` is `parentNode.children.length`. -/
structure Elem where
  tagName : String
  attrs : List (String × String)
  children : List Elem
  idx : Nat
  siblingCount : Nat

/-- Model of `element.getAttribute(name)`: value of the first attribute with the given
name, if any (DOM attribute names are unique; the embedding tolerates
duplicates by taking the first). -/
def getAttr (e : Elem) (name : String) : Option String :=
  (e.attrs.find? (fun p => p.1 == name)).map (·.2)

/-- Model of `element.hasAttribute(name)`. -/
def hasAttr (e : Elem) (name : String) : Bool :=
  (e.attrs.find? (fun p => p.1 == name)).isSome

/-- The seven plain-string members of `ReMarkup.prototype.semanticAttributes`.
The eighth member is a predicate function; a JS `indexOf` scan over the array
uses strict equality, so only these string members can ever be hit by
`semanticAttributes.indexOf(attrName)`. -/
def semanticAttributeNames : List String :=
  ["alt", "label", "placeholder", "title", "tooltip", "data-info", "popover"]

/-- The predicate member of `semanticAttributes`:
`name == 'value' && ['button', 'submit'].indexOf(element.getAttribute('type')) != -1`
(`getAttribute` yields `null` for a missing attribute, which is never found
by `indexOf`). -/
def semanticValuePredicate (name : String) (e : Elem) : Bool :=
  name == "value" &&
    (match getAttr e "type" with
     | some t => t == "button" || t == "submit"
     | none => false)

/-- Spec-level notion of a semantic attribute of an element: one of the seven
listed names, or the `value`-on-button/submit predicate case
(SemanticAttributeSpec). -/
def isSemanticAttribute (name : String) (e : Elem) : Bool :=
  semanticAttributeNames.contains name || semanticValuePredicate name e

/-- The list `identAttr = ['id', 'translate-id', 'remarkup-id']`: attributes that lead
to definite matching of elements in `defaultRawElementMetric`. -/
def identAttr : List String := ["id", "translate-id", "remarkup-id"]

/-- The identity short-circuit loop of `defaultRawElementMetric`: some
identity attribute is carried by both elements with equal values. -/
def identMatch (e1 e2 : Elem) : Bool :=
  identAttr.any (fun a =>
    hasAttr e1 a && hasAttr e2 a && (getAttr e1 a == getAttr e2 a))

/-- Classic single-character insert/delete/substitute edit distance on
character lists; model of the external `fast-levenshtein` collaborator
(contract from the spec, §6). -/
def levList : List Char → List Char → Nat
  | [], ys => ys.length
  | x :: xs, [] => (x :: xs).length
  | x :: xs, y :: ys =>
      if x = y then levList xs ys
      else 1 + min (levList xs ys) (min (levList (x :: xs) ys) (levList xs (y :: ys)))
  termination_by xs ys => xs.length + ys.length
  decreasing_by all_goals simp_arith

/-- Model of `levenshtein.get(a, b)` on strings. -/
def levenshtein (a b : String) : Nat :=
  levList a.toList b.toList

/-- The statements `var distance = 5; if (e1.tagName != e2.tagName) distance += 3;` —
the fixed minimum cost for elements with no shared identity plus the
tag-name penalty. -/
def baseDistance (e1 e2 : Elem) : ℝ :=
  5 + (if e1.tagName == e2.tagName then 0 else 3)

/-- First attribute loop of `defaultRawElementMetric`: one unit for every
attribute of `e1` that is absent on `e2` and is not a (string-listed)
semantic attribute. -/
def missingAttributeDistance (e1 e2 : Elem) : ℝ :=
  (e1.attrs.map (fun p =>
    if !(hasAttr e2 p.1) && !(semanticAttributeNames.contains p.1)
    then (1 : ℝ) else 0)).sum

/-- One iteration of the second attribute loop of `defaultRawElementMetric`,
for the `e2` attribute `p`: a semantic (string) name is skipped; an attribute
absent on `e1` costs one unit; an attribute present on both with differing
values costs `2 * log(levenshtein(v1, v2))`. -/
def changedAttributeTerm (log : ℕ → ℝ) (e1 : Elem) (p : String × String) : ℝ :=
  if semanticAttributeNames.contains p.1 then 0
  else if !(hasAttr e1 p.1) then 1
  else if (getAttr e1 p.1).getD "" == p.2 then 0
  else 2 * log (levenshtein ((getAttr e1 p.1).getD "") p.2)

/-- Second attribute loop of `defaultRawElementMetric`: the accumulated sum
of `changedAttributeTerm` over the attributes of `e2`. -/
def changedAttributeDistance (log : ℕ → ℝ) (e1 e2 : Elem) : ℝ :=
  (e2.attrs.map (changedAttributeTerm log e1)).sum

/-- Positional term of `defaultRawElementMetric`:
`positionDistance = Math.abs(e1i - e2i); if (positionDistance > 0)
distance += 2 * Math.log(positionDistance) + 1;`. -/
def positionDistanceTerm (log : ℕ → ℝ) (e1i e2i : ℕ) : ℝ :=
  if 0 < Nat.dist e1i e2i then 2 * log (Nat.dist e1i e2i) + 1 else 0

/-- Embedding of `ReMarkup.defaultRawElementMetric(e1, e2, e1i, e2i, e1pl, e2pl)`.
The identity short-circuit returns 0 immediately; otherwise the result is the
accumulated sum of the base/tag cost, both attribute loops and the positional
term.  The sibling-count arguments `e1pl`, `e2pl` are accepted and unused,
as in the source. -/
def defaultRawElementMetric (log : ℕ → ℝ) (e1 e2 : Elem)
    (e1i e2i _e1pl _e2pl : ℕ) : ℝ :=
  if identMatch e1 e2 then 0
  else
    baseDistance e1 e2 + missingAttributeDistance e1 e2
      + changedAttributeDistance log e1 e2 + positionDistanceTerm log e1i e2i

/-- Default-configuration attribute preservation test of
`ReMarkup.defaultElementFilter(['id', /^(remarkup|translate)-.+$/]
.concat(this.semanticAttributes))`: a name is preserved iff it is `id`,
matches the reserved-prefix pattern (`remarkup-`/`translate-` followed by at
least one character), is one of the semantic string names, or satisfies the
`value`-on-button/submit predicate evaluated against the element before any
removal (the filter clones `originalElement` first). -/
def defaultPreserved (name : String) (e : Elem) : Bool :=
  name == "id"
  || (name.startsWith "remarkup-" && 9 < name.length)
  || (name.startsWith "translate-" && 10 < name.length)
  || semanticAttributeNames.contains name
  || semanticValuePredicate name e

mutual

/-- Embedding of `ReMarkup.prototype.unMarkupRecurse` under the default element filters:
remove every non-preserved attribute of the element, then recurse into its
children. -/
def unMarkupRecurse (e : Elem) : Elem :=
  { e with
    attrs := e.attrs.filter (fun p => defaultPreserved p.1 e),
    children := unMarkupList e.children }
termination_by sizeOf e
decreasing_by cases e; simp; omega

/-- Recursion of `unMarkupRecurse` over a child list. -/
def unMarkupList : List Elem → List Elem
  | [] => []
  | c :: cs => unMarkupRecurse c :: unMarkupList cs
termination_by l => sizeOf l
decreasing_by all_goals (simp; try omega)

end

/-- Cost of an assignment returned by the external bipartite solver:
`for k: totalChildDistance += childMatrix[ci][cj]` (out-of-range indices
contribute the list default `0`; the munkres contract only ever returns
in-range pairs). -/
def assignmentCost (pairs : List (ℕ × ℕ)) (matrix : List (List ℝ)) : ℝ :=
  (pairs.map (fun ij => (matrix.getD ij.1 []).getD ij.2 0)).sum

mutual

/-- The function `computeElementDistance(e1, e2)` of `ReMarkup.prototype.reMarkup`, as the
pure recursive cost it computes (the memoised variant is `goMemo` below):
minimum-cost child assignment via the external solver when both elements have
children, plus `nonexistentChildDistance * |#children(e1) - #children(e2)|`,
plus the raw element metric applied to the attribute-filtered copy of `e1`,
the two flattened-list indices and the two sibling counts. -/
def computeElementDistance (log : ℕ → ℝ) (solver : List (List ℝ) → List (ℕ × ℕ))
    (ncd : ℝ) (e1 e2 : Elem) : ℝ :=
  (if 0 < e1.children.length && 0 < e2.children.length then
    let M := childMatrix log solver ncd e1.children e2.children
    assignmentCost (solver M) M
  else 0)
  + ncd * (Nat.dist e1.children.length e2.children.length : ℝ)
  + defaultRawElementMetric log (unMarkupRecurse e1) e2 e1.idx e2.idx
      e1.siblingCount e2.siblingCount
termination_by sizeOf e1 + sizeOf e2
decreasing_by cases e1; cases e2; simp; omega

/-- One row of the child distance matrix: distances from `c1` to each child
of the second element. -/
def childRow (log : ℕ → ℝ) (solver : List (List ℝ) → List (ℕ × ℕ))
    (ncd : ℝ) (c1 : Elem) : List Elem → List ℝ
  | [] => []
  | c2 :: rest =>
      computeElementDistance log solver ncd c1 c2 :: childRow log solver ncd c1 rest
termination_by l => sizeOf c1 + sizeOf l
decreasing_by all_goals (simp; try omega)

/-- The child distance matrix `childMatrix[i][j]`. -/
def childMatrix (log : ℕ → ℝ) (solver : List (List ℝ) → List (ℕ × ℕ))
    (ncd : ℝ) : List Elem → List Elem → List (List ℝ)
  | [], _ => []
  | c1 :: rest, cs2 =>
      childRow log solver ncd c1 cs2 :: childMatrix log solver ncd rest cs2
termination_by l1 l2 => sizeOf l1 + sizeOf l2
decreasing_by all_goals (simp; try omega)

end

/-- The child-alignment part of `computeElementDistance`: the summed cost of
the minimum-cost bipartite assignment over the children distance matrix when
both elements have child elements, and `0` otherwise. -/
def childAlignmentCost (log : ℕ → ℝ) (solver : List (List ℝ) → List (ℕ × ℕ))
    (ncd : ℝ) (e1 e2 : Elem) : ℝ :=
  if 0 < e1.children.length && 0 < e2.children.length then
    assignmentCost (solver (childMatrix log solver ncd e1.children e2.children))
      (childMatrix log solver ncd e1.children e2.children)
  else 0

/-- The memo table `distanceMatrix` of one `reMarkup` call, keyed by the pair
of flattened-list indices `(e1i, e2i)`; created empty at the start of every
call. -/
def Memo : Type := List ((ℕ × ℕ) × ℝ)

/-- The check `typeof distanceMatrix[e1i][e2i] != 'undefined'` — memo lookup (the most
recent store for a key wins, matching assignment to the table cell). -/
def memoLookup (m : Memo) (k : ℕ × ℕ) : Option ℝ :=
  match m with
  | [] => none
  | (k1, v) :: rest => if k1.1 == k.1 && k1.2 == k.2 then some v else memoLookup rest k

mutual

/-- The function `computeElementDistance` exactly as written in the source: consult the
shared mutable `distanceMatrix` first, otherwise compute the cost (threading
the table through the recursive child-matrix construction) and store it under
`(e1.idx, e2.idx)` before returning. -/
def goMemo (log : ℕ → ℝ) (solver : List (List ℝ) → List (ℕ × ℕ))
    (ncd : ℝ) (e1 e2 : Elem) (memo : Memo) : ℝ × Memo :=
  match memoLookup memo (e1.idx, e2.idx) with
  | some d => (d, memo)
  | none =>
    let r :=
      if 0 < e1.children.length && 0 < e2.children.length then
        let Mm := goMatrix log solver ncd e1.children e2.children memo
        (assignmentCost (solver Mm.1) Mm.1, Mm.2)
      else (0, memo)
    let d := r.1 + ncd * (Nat.dist e1.children.length e2.children.length : ℝ)
      + defaultRawElementMetric log (unMarkupRecurse e1) e2 e1.idx e2.idx
          e1.siblingCount e2.siblingCount
    (d, ((e1.idx, e2.idx), d) :: r.2)
termination_by sizeOf e1 + sizeOf e2
decreasing_by cases e1; cases e2; simp; omega

/-- Memo-threading construction of one row of the child matrix. -/
def goRow (log : ℕ → ℝ) (solver : List (List ℝ) → List (ℕ × ℕ))
    (ncd : ℝ) (c1 : Elem) : List Elem → Memo → List ℝ × Memo
  | [], memo => ([], memo)
  | c2 :: rest, memo =>
      let dm := goMemo log solver ncd c1 c2 memo
      let rm := goRow log solver ncd c1 rest dm.2
      (dm.1 :: rm.1, rm.2)
termination_by l _ => sizeOf c1 + sizeOf l
decreasing_by all_goals (simp; try omega)

/-- Memo-threading construction of the child matrix. -/
def goMatrix (log : ℕ → ℝ) (solver : List (List ℝ) → List (ℕ × ℕ))
    (ncd : ℝ) : List Elem → List Elem → Memo → List (List ℝ) × Memo
  | [], _, memo => ([], memo)
  | c1 :: rest, cs2, memo =>
      let rm := goRow log solver ncd c1 cs2 memo
      let mm := goMatrix log solver ncd rest cs2 rm.2
      (rm.1 :: mm.1, mm.2)
termination_by l1 l2 _ => sizeOf l1 + sizeOf l2
decreasing_by all_goals (simp; try omega)

end

/-- Document-order (pre-order) flattening of a parsed forest:
`body.querySelectorAll('*')` — every element followed by its descendants,
siblings in order. -/
def flattenForest : List Elem → List Elem
  | [] => []
  | r :: rs => r :: (flattenForest r.children ++ flattenForest rs)
termination_by l => sizeOf l
decreasing_by all_goals (cases c; simp; try omega)

/-- Model of `dst.setAttribute(name, value)`: overwrite the existing attribute of that
name or append a new one. -/
def setAttribute (attrs : List (String × String)) (name value : String) :
    List (String × String) :=
  if attrs.any (fun p => p.1 == name) then
    attrs.map (fun p => if p.1 == name then (p.1, value) else p)
  else attrs ++ [(name, value)]

/-- The helper `copyAttributes(src, dst, ignored)` on attribute lists: set every source
attribute on the destination except those whose *name* is found by
`ignored.indexOf` (for the `semanticAttributes` argument that means the seven
string members only — `indexOf` cannot hit the predicate member). -/
def copyAttributesList (ignored : List String) (src dst : List (String × String)) :
    List (String × String) :=
  src.foldl (fun acc p =>
    if ignored.contains p.1 then acc else setAttribute acc p.1 p.2) dst

/-- Fallback element for out-of-range list indexing. -/
def defaultElem : Elem := ⟨"", [], [], 0, 0⟩

/-- Final attribute list of the `j`-th edited element after the copy loop
`for k: copyAttributes(origElements[ci], modElements[cj], semanticAttributes)`:
fold the assignment pairs in order, each pair targeting `j` layering a copy
from its original element onto the current attributes. -/
def finalAttrs (origElements modElements : List Elem)
    (pairs : List (ℕ × ℕ)) (j : ℕ) : List (String × String) :=
  pairs.foldl (fun acc ij =>
    if ij.2 == j then
      copyAttributesList semanticAttributeNames
        (origElements.getD ij.1 defaultElem).attrs acc
    else acc)
    ((modElements.getD j defaultElem).attrs)

/-- The edited element list after the copy loop: element `j` keeps its parsed
data with its attributes replaced by `finalAttrs`. -/
def applyAssignment (origElements modElements : List Elem)
    (pairs : List (ℕ × ℕ)) : List Elem :=
  (List.range modElements.length).map (fun j =>
    { modElements.getD j defaultElem with
      attrs := finalAttrs origElements modElements pairs j })

/-- Embedding of `ReMarkup.prototype.reMarkup(original, modified)` with the external
collaborators abstracted per the spec's interface boundary: `parse` produces
the parsed element forest of a fragment, `serialize` re-serialises the edited
elements (`modBody.innerHTML`), `solver` is the munkres assignment solver.
Parse both fragments, flatten; if either element list is empty return the
edited input unchanged; otherwise build the full distance matrix, solve one
global assignment and copy non-semantic attributes along the matched pairs.
Distances are the pure `computeElementDistance` values (see `goMemo` /
`reMarkupMemo` for the source's memoised equivalent). -/
def reMarkup (parse : String → List Elem) (serialize : List Elem → String)
    (solver : List (List ℝ) → List (ℕ × ℕ)) (log : ℕ → ℝ) (ncd : ℝ)
    (original modified : String) : String :=
  let origElements := flattenForest (parse original)
  let modElements := flattenForest (parse modified)
  if origElements.length = 0 || modElements.length = 0 then modified
  else
    let M := childMatrix log solver ncd origElements modElements
    let pairs := solver M
    serialize (applyAssignment origElements modElements pairs)

/-- Embedding of `ReMarkup.prototype.reMarkup` with the distance matrix computed exactly as
in the source: a single mutable memo table, created empty for this call,
shared between the top-level double loop and all nested child alignments, and
discarded after the call. -/
def reMarkupMemo (parse : String → List Elem) (serialize : List Elem → String)
    (solver : List (List ℝ) → List (ℕ × ℕ)) (log : ℕ → ℝ) (ncd : ℝ)
    (original modified : String) : String :=
  let origElements := flattenForest (parse original)
  let modElements := flattenForest (parse modified)
  if origElements.length = 0 || modElements.length = 0 then modified
  else
    let M := (goMatrix log solver ncd origElements modElements []).1
    let pairs := solver M
    serialize (applyAssignment origElements modElements pairs)

/-- Invariant of the memo table during one reconciliation call over the two
flattened element lists `E1`, `E2`: every stored cell holds the true
(pure-recursive) distance of the element pair its key indices denote. -/
def MemoSound (log : ℕ → ℝ) (solver : List (List ℝ) → List (ℕ × ℕ))
    (ncd : ℝ) (E1 E2 : List Elem) (memo : Memo) : Prop :=
  ∀ a ∈ E1, ∀ b ∈ E2, ∀ d : ℝ,
    memoLookup memo (a.idx, b.idx) = some d →
    d = computeElementDistance log solver ncd a b

/-- Constructor option handling
`this.nonexistentChildDistance = opt.nonexistentChildDistance || 10;`:
an absent option or a falsy (zero) numeric value selects the default 10.
Supplied JS numbers are modelled as rationals. -/
def mkNonexistentChildDistance (o : Option ℚ) : ℝ :=
  match o with
  | none => 10
  | some v => if v = 0 then 10 else (v : ℝ)

/-! ## Helper lemmas -/

theorem hasAttr_iff_mem {e : Elem} {n : String} :
    hasAttr e n = true ↔ n ∈ e.attrs.map Prod.fst := by
  simp only [hasAttr, List.find?_isSome, List.mem_map, beq_iff_eq]

theorem identMatch_eq_true {e1 e2 : Elem}
    (h : ∃ a ∈ identAttr, hasAttr e1 a = true ∧ hasAttr e2 a = true ∧
      getAttr e1 a = getAttr e2 a) :
    identMatch e1 e2 = true := by
  obtain ⟨a, ha, h1, h2, h3⟩ := h
  simp only [identMatch, List.any_eq_true]
  exact ⟨a, ha, by simp [h1, h2, h3]⟩

theorem identMatch_eq_false {e1 e2 : Elem}
    (h : ∀ a ∈ identAttr, ¬(a ∈ e1.attrs.map Prod.fst ∧ a ∈ e2.attrs.map Prod.fst ∧
      getAttr e1 a = getAttr e2 a)) :
    identMatch e1 e2 = false := by
  simp only [identMatch, List.any_eq_false]
  intro a ha
  simp only [Bool.and_eq_true, beq_iff_eq, not_and]
  intro h12 h3
  exact h a ha ⟨hasAttr_iff_mem.mp h12.1, hasAttr_iff_mem.mp h12.2, h3⟩

/-! ## C1 — identity short-circuit of the default raw element metric -/

/-- C1: whenever some attribute of the identity set `{id, translate-id,
remarkup-id}` is carried by both elements with equal values, the default raw
element metric returns exactly 0, regardless of tag names, other attributes
or positional indices. -/
theorem claim1_identity_short_circuit (log : ℕ → ℝ) (e1 e2 : Elem)
    (e1i e2i e1pl e2pl : ℕ)
    (h : ∃ a ∈ identAttr, hasAttr e1 a = true ∧ hasAttr e2 a = true ∧
      getAttr e1 a = getAttr e2 a) :
    defaultRawElementMetric log e1 e2 e1i e2i e1pl e2pl = 0 := by
  simp [defaultRawElementMetric, identMatch_eq_true h]

/-- C1 witness: two elements with different tag names, different other
attributes and different positions, sharing `translate-id="x"`, get metric
0. -/
theorem claim1_identity_short_circuit_witness :
    defaultRawElementMetric (fun n => Real.log n)
      ⟨"div", [("translate-id", "x"), ("class", "a")], [], 0, 1⟩
      ⟨"span", [("translate-id", "x"), ("href", "b")], [], 7, 3⟩ 0 7 1 3 = 0 :=
  claim1_identity_short_circuit (fun n => Real.log n) _ _ 0 7 1 3
    ⟨"translate-id", by decide, by decide, by decide, by decide⟩

/-! ## C10 — constructor handling of `nonexistentChildDistance` -/

/-- C10 counterexample: the claim "for every constructed instance the
effective missing-child penalty is strictly positive" fails — a (truthy)
negative option value is kept verbatim, giving a negative penalty. -/
theorem claim10_counterexample :
    mkNonexistentChildDistance (some (-1)) = -1
    ∧ ¬(0 < mkNonexistentChildDistance (some (-1))) := by
  constructor
  · norm_num [mkNonexistentChildDistance]
  · norm_num [mkNonexistentChildDistance]

/-- C10 (amended): a missing option or the falsy value 0 selects the default
10, so the configured penalty is never zero, and it is strictly positive for
every nonnegative supplied value; a negative supplied value is kept. -/
theorem claim10_amended :
    mkNonexistentChildDistance (some 0) = 10
    ∧ mkNonexistentChildDistance none = 10
    ∧ (∀ v : ℚ, 0 ≤ v → 0 < mkNonexistentChildDistance (some v))
    ∧ (∀ o : Option ℚ, mkNonexistentChildDistance o ≠ 0) := by
  refine ⟨by norm_num [mkNonexistentChildDistance],
    by norm_num [mkNonexistentChildDistance], ?_, ?_⟩
  · intro v hv
    by_cases h0 : v = 0
    · simp [mkNonexistentChildDistance, h0]
    · have : 0 < v := lt_of_le_of_ne hv (Ne.symm h0)
      simp only [mkNonexistentChildDistance, if_neg h0]
      exact_mod_cast this
  · intro o
    match o with
    | none => norm_num [mkNonexistentChildDistance]
    | some v =>
      by_cases h0 : v = 0
      · simp [mkNonexistentChildDistance, h0]
      · simp only [mkNonexistentChildDistance, if_neg h0]
        exact_mod_cast h0

/-- C10 witness: a nonnegative supplied value yields a strictly positive
penalty. -/
theorem claim10_amended_witness :
    0 < mkNonexistentChildDistance (some 3) :=
  claim10_amended.2.2.1 3 (by norm_num)

theorem find?_fst_append_cons (pre post : List (String × String)) (a v : String)
    (hpre : a ∉ pre.map Prod.fst) :
    List.find? (fun p => p.1 == a) (pre ++ (a, v) :: post) = some (a, v) := by
  induction pre with
  | nil => simp
  | cons q qs ih =>
    simp only [List.map_cons, List.mem_cons, not_or] at hpre
    rw [List.cons_append, List.find?_cons_of_neg, ih hpre.2]
    simp only [beq_iff_eq]
    exact fun h => hpre.1 h.symm

theorem getAttr_append_cons (t : String) (cs : List Elem) (i s : ℕ)
    (pre post : List (String × String)) (a v : String)
    (hpre : a ∉ pre.map Prod.fst) :
    getAttr ⟨t, pre ++ (a, v) :: post, cs, i, s⟩ a = some v := by
  simp [getAttr, find?_fst_append_cons pre post a v hpre]

theorem hasAttr_eq_decide (e : Elem) (n : String) :
    hasAttr e n = decide (n ∈ e.attrs.map Prod.fst) := by
  by_cases hm : n ∈ e.attrs.map Prod.fst
  · rw [hasAttr_iff_mem.mpr hm, decide_eq_true hm]
  · have hfalse : hasAttr e n = false := by
      rw [Bool.eq_false_iff]
      intro hT
      exact hm (hasAttr_iff_mem.mp hT)
    rw [hfalse, decide_eq_false hm]

theorem hasAttr_congr {e e' : Elem}
    (h : e.attrs.map Prod.fst = e'.attrs.map Prod.fst) (n : String) :
    hasAttr e n = hasAttr e' n := by
  rw [hasAttr_eq_decide, hasAttr_eq_decide, h]

/-! ## C6 — positional penalty of the default raw element metric -/

/-- C6 counterexample: the positional penalty is not *proportional* to the
logarithm of the index difference.  For two otherwise identical non-identity
elements, no constant `c` makes the metric equal the equal-index baseline
plus `c * ln(|e1i - e2i|)`: at index difference 1 the code adds
`2·ln(1) + 1 = 1`, while `c * ln(1) = 0` for every `c`. -/
theorem claim6_counterexample :
    ¬ ∃ c : ℝ, ∀ i j : ℕ,
      defaultRawElementMetric (fun n => Real.log n)
          ⟨"div", [], [], 0, 1⟩ ⟨"div", [], [], 1, 1⟩ i j 1 1
        = defaultRawElementMetric (fun n => Real.log n)
            ⟨"div", [], [], 0, 1⟩ ⟨"div", [], [], 1, 1⟩ i i 1 1
          + c * Real.log (Nat.dist i j) := by
  rintro ⟨c, h⟩
  have h01 := h 0 1
  norm_num [defaultRawElementMetric, identMatch, identAttr, hasAttr,
    baseDistance, missingAttributeDistance, changedAttributeDistance,
    positionDistanceTerm, Nat.dist] at h01

/-- C6 (amended): for a pair not matched by an identity attribute, the
default raw element metric equals the equal-index metric value plus the
positional term `2·ln(|e1i - e2i|) + 1` when the flattened-list indices
passed by the subtree aligner differ, and adds no positional penalty when
they are equal. -/
theorem claim6_position_penalty (e1 e2 : Elem) (e1i e2i k e1pl e2pl kpl kpl' : ℕ)
    (h : identMatch e1 e2 = false) :
    defaultRawElementMetric (fun n => Real.log n) e1 e2 e1i e2i e1pl e2pl
      = defaultRawElementMetric (fun n => Real.log n) e1 e2 k k kpl kpl'
        + (if 0 < Nat.dist e1i e2i
           then 2 * Real.log (Nat.dist e1i e2i) + 1 else 0) := by
  simp only [defaultRawElementMetric, h, Bool.false_eq_true, if_false,
    positionDistanceTerm, Nat.dist_self, lt_irrefl]
  norm_num

/-- C6 witness: concrete elements at flattened indices 2 and 9. -/
theorem claim6_position_penalty_witness :
    defaultRawElementMetric (fun n => Real.log n)
        ⟨"em", [("class", "x")], [], 2, 4⟩ ⟨"p", [], [], 9, 4⟩ 2 9 4 4
      = defaultRawElementMetric (fun n => Real.log n)
          ⟨"em", [("class", "x")], [], 2, 4⟩ ⟨"p", [], [], 9, 4⟩ 0 0 1 1
        + (if 0 < Nat.dist 2 9 then 2 * Real.log (Nat.dist 2 9) + 1 else 0) :=
  claim6_position_penalty _ _ 2 9 0 4 4 1 1 (by decide)

/-! ## C2 — the copy step versus the semantic attribute predicate -/

/-- C2 (code bug, shown at the repository's own test input): the `value`
attribute of a `type="button"` destination element *is* semantic by
SemanticAttributeSpec (predicate member), yet the copy step overwrites it
with the original element's value, because `copyAttributes` tests attribute
names with `ignored.indexOf`, which can only match the seven string members
of `semanticAttributes`, never the predicate.  The repository's test
(`should modify the "value" attribute of input elements of certain types`)
and the `semanticAttributes` JSDoc both require the opposite. -/
theorem claim2_semantic_value_overwritten :
    isSemanticAttribute "value"
        ⟨"input", [("type", "button"), ("value", "Button text changed")], [], 1, 2⟩ = true
    ∧ copyAttributesList semanticAttributeNames
        [("type", "button"), ("value", "Still there")]
        [("type", "button"), ("value", "Button text changed")]
      = [("type", "button"), ("value", "Still there")] := by
  exact ⟨by decide, by decide⟩

/-! ## C4 — empty element lists return the edited input unchanged -/

/-- C4: if parsing leaves zero elements in the original tree or zero elements
in the edited tree, `reMarkup` (both the pure form and the source's memoised
form) returns the edited input string unchanged. -/
theorem claim4_empty_tree_returns_modified
    (parse : String → List Elem) (serialize : List Elem → String)
    (solver : List (List ℝ) → List (ℕ × ℕ)) (log : ℕ → ℝ) (ncd : ℝ)
    (original modified : String)
    (h : (flattenForest (parse original)).length = 0
       ∨ (flattenForest (parse modified)).length = 0) :
    reMarkup parse serialize solver log ncd original modified = modified
    ∧ reMarkupMemo parse serialize solver log ncd original modified = modified := by
  rcases h with h | h <;> constructor <;> simp [reMarkup, reMarkupMemo, h]

/-- C4 witness: an original fragment that parses to no elements. -/
theorem claim4_empty_tree_returns_modified_witness :
    reMarkup (fun _ => []) (fun _ => "serialized") (fun _ => [])
        (fun n => Real.log n) 10 "plain original text" "edited text"
      = "edited text"
    ∧ reMarkupMemo (fun _ => []) (fun _ => "serialized") (fun _ => [])
        (fun n => Real.log n) 10 "plain original text" "edited text"
      = "edited text" :=
  claim4_empty_tree_returns_modified _ _ _ _ _ _ _
    (Or.inl (by simp [flattenForest]))

/-! ## C7 — cost of a single changed attribute value -/

theorem metric_value_change_general (log : ℕ → ℝ) (t : String)
    (cs1 cs2 : List Elem) (i1 s1 i2 s2 : ℕ)
    (pre post : List (String × String)) (a old new : String)
    (i j p q : ℕ)
    (hnodup : ((pre ++ (a, old) :: post).map Prod.fst).Nodup)
    (hsem : a ∉ semanticAttributeNames)
    (hident : ∀ nm ∈ (pre ++ (a, old) :: post).map Prod.fst, nm ∉ identAttr)
    (hne : old ≠ new) :
    defaultRawElementMetric log ⟨t, pre ++ (a, old) :: post, cs1, i1, s1⟩
        ⟨t, pre ++ (a, new) :: post, cs2, i2, s2⟩ i j p q
      = defaultRawElementMetric log ⟨t, pre ++ (a, old) :: post, cs1, i1, s1⟩
          ⟨t, pre ++ (a, old) :: post, cs2, i2, s2⟩ i j p q
        + 2 * log (levenshtein old new) := by
  have hnames : ((pre ++ (a, new) :: post).map Prod.fst)
      = ((pre ++ (a, old) :: post).map Prod.fst) := by
    simp
  have hpre : a ∉ pre.map Prod.fst := by
    intro hmem
    have hsplit : ((pre ++ (a, old) :: post).map Prod.fst)
        = pre.map Prod.fst ++ a :: post.map Prod.fst := by simp
    rw [hsplit] at hnodup
    exact (List.disjoint_of_nodup_append hnodup) hmem (List.mem_cons_self a _)
  have e1mem : a ∈ ((pre ++ (a, old) :: post).map Prod.fst) := by simp
  have idm1 : identMatch ⟨t, pre ++ (a, old) :: post, cs1, i1, s1⟩
      ⟨t, pre ++ (a, new) :: post, cs2, i2, s2⟩ = false := by
    apply identMatch_eq_false
    intro b hb hmem
    exact hident b hmem.1 hb
  have idm2 : identMatch ⟨t, pre ++ (a, old) :: post, cs1, i1, s1⟩
      ⟨t, pre ++ (a, old) :: post, cs2, i2, s2⟩ = false := by
    apply identMatch_eq_false
    intro b hb hmem
    exact hident b hmem.1 hb
  have hget : getAttr ⟨t, pre ++ (a, old) :: post, cs1, i1, s1⟩ a = some old :=
    getAttr_append_cons t cs1 i1 s1 pre post a old hpre
  have hbase : baseDistance ⟨t, pre ++ (a, old) :: post, cs1, i1, s1⟩
      ⟨t, pre ++ (a, new) :: post, cs2, i2, s2⟩
      = baseDistance ⟨t, pre ++ (a, old) :: post, cs1, i1, s1⟩
        ⟨t, pre ++ (a, old) :: post, cs2, i2, s2⟩ := by
    simp [baseDistance]
  have hmiss : missingAttributeDistance ⟨t, pre ++ (a, old) :: post, cs1, i1, s1⟩
      ⟨t, pre ++ (a, new) :: post, cs2, i2, s2⟩
      = missingAttributeDistance ⟨t, pre ++ (a, old) :: post, cs1, i1, s1⟩
        ⟨t, pre ++ (a, old) :: post, cs2, i2, s2⟩ := by
    unfold missingAttributeDistance
    congr 1
    apply List.map_congr_left
    intro pr _
    have hnames2 : (Elem.mk t (pre ++ (a, new) :: post) cs2 i2 s2).attrs.map Prod.fst
        = (Elem.mk t (pre ++ (a, old) :: post) cs2 i2 s2).attrs.map Prod.fst := by
      simp
    rw [hasAttr_congr hnames2 pr.1]
  have hchanged : changedAttributeDistance log
      ⟨t, pre ++ (a, old) :: post, cs1, i1, s1⟩
      ⟨t, pre ++ (a, new) :: post, cs2, i2, s2⟩
      = changedAttributeDistance log
        ⟨t, pre ++ (a, old) :: post, cs1, i1, s1⟩
        ⟨t, pre ++ (a, old) :: post, cs2, i2, s2⟩
        + 2 * log (levenshtein old new) := by
    have hc : semanticAttributeNames.contains a = false := by
      rw [Bool.eq_false_iff]
      intro hT
      exact hsem (by simpa using hT)
    have hh : hasAttr ⟨t, pre ++ (a, old) :: post, cs1, i1, s1⟩ a = true :=
      hasAttr_iff_mem.mpr e1mem
    have htermNew : changedAttributeTerm log
        ⟨t, pre ++ (a, old) :: post, cs1, i1, s1⟩ (a, new)
        = 2 * log (levenshtein old new) := by
      simp only [changedAttributeTerm, hc, hh, hget, Option.getD_some,
        Bool.not_true, Bool.false_eq_true, if_false, beq_iff_eq, if_neg hne]
    have htermOld : changedAttributeTerm log
        ⟨t, pre ++ (a, old) :: post, cs1, i1, s1⟩ (a, old) = 0 := by
      simp only [changedAttributeTerm, hc, hh, hget, Option.getD_some,
        Bool.not_true, Bool.false_eq_true, if_false, beq_self_eq_true, if_true]
    unfold changedAttributeDistance
    simp only [List.map_append, List.map_cons, List.sum_append, List.sum_cons,
      htermNew, htermOld]
    ring
  simp only [defaultRawElementMetric, idm1, idm2, Bool.false_eq_true, if_false]
  rw [hbase, hmiss, hchanged]
  ring

/-- C7: for elements not matched by an identity attribute with identical tag
names and identical attribute name lists, changing the value of exactly one
non-semantic attribute from `old` (original side) to `new` (edited side)
increases the default raw element metric by exactly
`2 * ln(editDistance(old, new))`; when the edit distance is 1 this added term
is 0. -/
theorem claim7_value_only_change (t : String)
    (cs1 cs2 : List Elem) (i1 s1 i2 s2 : ℕ)
    (pre post : List (String × String)) (a old new : String)
    (i j p q : ℕ)
    (hnodup : ((pre ++ (a, old) :: post).map Prod.fst).Nodup)
    (hsem : a ∉ semanticAttributeNames)
    (hident : ∀ nm ∈ (pre ++ (a, old) :: post).map Prod.fst, nm ∉ identAttr)
    (hne : old ≠ new) :
    (defaultRawElementMetric (fun n => Real.log n)
        ⟨t, pre ++ (a, old) :: post, cs1, i1, s1⟩
        ⟨t, pre ++ (a, new) :: post, cs2, i2, s2⟩ i j p q
      = defaultRawElementMetric (fun n => Real.log n)
          ⟨t, pre ++ (a, old) :: post, cs1, i1, s1⟩
          ⟨t, pre ++ (a, old) :: post, cs2, i2, s2⟩ i j p q
        + 2 * Real.log (levenshtein old new))
    ∧ (levenshtein old new = 1 →
      defaultRawElementMetric (fun n => Real.log n)
          ⟨t, pre ++ (a, old) :: post, cs1, i1, s1⟩
          ⟨t, pre ++ (a, new) :: post, cs2, i2, s2⟩ i j p q
        = defaultRawElementMetric (fun n => Real.log n)
            ⟨t, pre ++ (a, old) :: post, cs1, i1, s1⟩
            ⟨t, pre ++ (a, old) :: post, cs2, i2, s2⟩ i j p q) := by
  have h := metric_value_change_general (fun n => Real.log n) t cs1 cs2 i1 s1 i2 s2
    pre post a old new i j p q hnodup hsem hident hne
  refine ⟨h, fun h1 => ?_⟩
  rw [h, h1]
  norm_num

/-- C7 witness: a `class` attribute changed from `"x"` to `"y"` (edit
distance 1). -/
theorem claim7_value_only_change_witness :
    (defaultRawElementMetric (fun n => Real.log n)
        ⟨"div", [("class", "x")], [], 0, 1⟩
        ⟨"div", [("class", "y")], [], 0, 1⟩ 0 0 1 1
      = defaultRawElementMetric (fun n => Real.log n)
          ⟨"div", [("class", "x")], [], 0, 1⟩
          ⟨"div", [("class", "x")], [], 0, 1⟩ 0 0 1 1
        + 2 * Real.log (levenshtein "x" "y"))
    ∧ (levenshtein "x" "y" = 1 →
      defaultRawElementMetric (fun n => Real.log n)
          ⟨"div", [("class", "x")], [], 0, 1⟩
          ⟨"div", [("class", "y")], [], 0, 1⟩ 0 0 1 1
        = defaultRawElementMetric (fun n => Real.log n)
            ⟨"div", [("class", "x")], [], 0, 1⟩
            ⟨"div", [("class", "x")], [], 0, 1⟩ 0 0 1 1) :=
  claim7_value_only_change "div" [] [] 0 1 0 1 [] [] "class" "x" "y" 0 0 1 1
    (by decide) (by decide) (by decide) (by decide)

/-! ## C3 — the attribute-copy pairs are one-to-one -/

theorem foldl_copy_skip (E1 : List Elem) (j : ℕ) :
    ∀ (pairs : List (ℕ × ℕ)) (acc : List (String × String)),
      (∀ ij ∈ pairs, ij.2 ≠ j) →
      pairs.foldl (fun acc ij =>
        if ij.2 == j then
          copyAttributesList semanticAttributeNames
            (E1.getD ij.1 defaultElem).attrs acc
        else acc) acc = acc := by
  intro pairs
  induction pairs with
  | nil =>
    intro acc _
    rfl
  | cons q rest ih =>
    intro acc h
    have hq : (q.2 == j) = false := by
      rw [beq_eq_false_iff_ne]
      exact h q (List.mem_cons_self q rest)
    simp only [List.foldl_cons, hq, Bool.false_eq_true, if_false]
    exact ih acc (fun ij hij => h ij (List.mem_cons_of_mem q hij))

theorem finalAttrs_eq_of_mem (E1 E2 : List Elem) :
    ∀ (pairs : List (ℕ × ℕ)), (pairs.map Prod.snd).Nodup →
      ∀ p ∈ pairs,
        finalAttrs E1 E2 pairs p.2
          = copyAttributesList semanticAttributeNames
              (E1.getD p.1 defaultElem).attrs (E2.getD p.2 defaultElem).attrs := by
  intro pairs
  induction pairs with
  | nil =>
    intro _ p hp
    simp at hp
  | cons q rest ih =>
    intro hnd p hp
    rw [List.map_cons, List.nodup_cons] at hnd
    obtain ⟨hqnot, hnd'⟩ := hnd
    rcases List.mem_cons.mp hp with rfl | hp'
    · unfold finalAttrs
      simp only [List.foldl_cons, beq_self_eq_true, if_true]
      apply foldl_copy_skip
      intro ij hij hEq
      exact hqnot (hEq ▸ List.mem_map_of_mem Prod.snd hij)
    · have hq : (q.2 == p.2) = false := by
        rw [beq_eq_false_iff_ne]
        intro hEq
        exact hqnot (hEq ▸ List.mem_map_of_mem Prod.snd hp')
      unfold finalAttrs
      simp only [List.foldl_cons, hq, Bool.false_eq_true, if_false]
      have hrec := ih hnd' p hp'
      unfold finalAttrs at hrec
      exact hrec

/-- C3: under the bipartite-solver contract (the returned assignment has
pairwise-distinct original indices and pairwise-distinct edited indices), the
pairs along which the copy loop transfers attributes are one-to-one: no two
pairs share a source, no two pairs share a destination, and consequently
each matched destination's final attributes are exactly one copy from its
unique source, unaffected by every other pair. -/
theorem claim3_one_to_one (E1 E2 : List Elem) (pairs : List (ℕ × ℕ))
    (hrows : (pairs.map Prod.fst).Nodup) (hcols : (pairs.map Prod.snd).Nodup) :
    (∀ p ∈ pairs, ∀ q ∈ pairs, p.1 = q.1 → p = q)
    ∧ (∀ p ∈ pairs, ∀ q ∈ pairs, p.2 = q.2 → p = q)
    ∧ (∀ p ∈ pairs,
        finalAttrs E1 E2 pairs p.2
          = copyAttributesList semanticAttributeNames
              (E1.getD p.1 defaultElem).attrs (E2.getD p.2 defaultElem).attrs) :=
  ⟨fun p hp q hq h => List.inj_on_of_nodup_map hrows hp hq h,
   fun p hp q hq h => List.inj_on_of_nodup_map hcols hp hq h,
   finalAttrs_eq_of_mem E1 E2 pairs hcols⟩

/-- C3 witness: a two-element reconciliation with the crossed assignment
`[(0,1), (1,0)]`. -/
theorem claim3_one_to_one_witness :
    finalAttrs [⟨"a", [("x", "1")], [], 0, 1⟩, ⟨"b", [("y", "2")], [], 1, 1⟩]
        [⟨"c", [], [], 0, 1⟩, ⟨"d", [], [], 1, 1⟩] [(0, 1), (1, 0)] 1
      = copyAttributesList semanticAttributeNames [("x", "1")] [] :=
  (claim3_one_to_one _ _ [(0, 1), (1, 0)] (by decide) (by decide)).2.2
    (0, 1) (by decide)

/-! ## C5 — the missing-child penalty term of the subtree alignment cost -/

theorem computeElementDistance_eq (log : ℕ → ℝ)
    (solver : List (List ℝ) → List (ℕ × ℕ)) (ncd : ℝ) (e1 e2 : Elem) :
    computeElementDistance log solver ncd e1 e2
      = childAlignmentCost log solver ncd e1 e2
        + ncd * (Nat.dist e1.children.length e2.children.length : ℝ)
        + defaultRawElementMetric log (unMarkupRecurse e1) e2 e1.idx e2.idx
            e1.siblingCount e2.siblingCount := by
  rw [computeElementDistance, childAlignmentCost]

/-- C5: the subtree alignment cost decomposes as the child-assignment cost
plus exactly `nonexistentChildDistance * |#children(e1) - #children(e2)|`
plus the raw element metric; consequently, increasing the absolute
child-count difference by one while the child-assignment cost and the raw
metric value stay equal increases the alignment cost by exactly the
configured penalty constant. -/
theorem claim5_child_count_penalty :
    (∀ (log : ℕ → ℝ) (solver : List (List ℝ) → List (ℕ × ℕ)) (ncd : ℝ)
      (e1 e2 : Elem),
      computeElementDistance log solver ncd e1 e2
        = childAlignmentCost log solver ncd e1 e2
          + ncd * (Nat.dist e1.children.length e2.children.length : ℝ)
          + defaultRawElementMetric log (unMarkupRecurse e1) e2 e1.idx e2.idx
              e1.siblingCount e2.siblingCount)
    ∧ (∀ (log : ℕ → ℝ) (solver : List (List ℝ) → List (ℕ × ℕ)) (ncd : ℝ)
      (e1 e2 e2' : Elem),
      childAlignmentCost log solver ncd e1 e2'
        = childAlignmentCost log solver ncd e1 e2 →
      defaultRawElementMetric log (unMarkupRecurse e1) e2' e1.idx e2'.idx
          e1.siblingCount e2'.siblingCount
        = defaultRawElementMetric log (unMarkupRecurse e1) e2 e1.idx e2.idx
            e1.siblingCount e2.siblingCount →
      Nat.dist e1.children.length e2'.children.length
        = Nat.dist e1.children.length e2.children.length + 1 →
      computeElementDistance log solver ncd e1 e2'
        = computeElementDistance log solver ncd e1 e2 + ncd) := by
  refine ⟨computeElementDistance_eq, ?_⟩
  intro log solver ncd e1 e2 e2' hchild hraw hcnt
  rw [computeElementDistance_eq, computeElementDistance_eq, hchild, hraw, hcnt]
  push_cast
  ring

/-- C5 witness: a childless element against a one-child and a two-child
element (child-assignment cost 0 and equal raw metric on both sides);
the costs differ by exactly the default penalty 10. -/
theorem claim5_child_count_penalty_witness :
    computeElementDistance (fun n => Real.log n) (fun _ => []) 10
        ⟨"div", [], [], 0, 1⟩ ⟨"div", [], [⟨"span", [], [], 1, 1⟩, ⟨"span", [], [], 2, 2⟩], 0, 1⟩
      = computeElementDistance (fun n => Real.log n) (fun _ => []) 10
          ⟨"div", [], [], 0, 1⟩ ⟨"div", [], [⟨"span", [], [], 1, 1⟩], 0, 1⟩ + 10 :=
  claim5_child_count_penalty.2 (fun n => Real.log n) (fun _ => []) 10
    ⟨"div", [], [], 0, 1⟩ ⟨"div", [], [⟨"span", [], [], 1, 1⟩], 0, 1⟩
    ⟨"div", [], [⟨"span", [], [], 1, 1⟩, ⟨"span", [], [], 2, 2⟩], 0, 1⟩
    (by simp [childAlignmentCost])
    (by norm_num [unMarkupRecurse, unMarkupList, defaultRawElementMetric,
      identMatch, identAttr, hasAttr, getAttr, baseDistance,
      missingAttributeDistance, changedAttributeDistance, changedAttributeTerm,
      positionDistanceTerm, defaultPreserved, Nat.dist])
    (by decide)

/-! ## C8 — non-negativity of the metric and of the alignment cost -/

theorem levList_eq_zero : ∀ {xs ys : List Char}, levList xs ys = 0 → xs = ys := by
  intro xs
  induction xs with
  | nil =>
    intro ys h
    cases ys with
    | nil => rfl
    | cons y ys => simp [levList] at h
  | cons x xs ih =>
    intro ys h
    cases ys with
    | nil => simp [levList] at h
    | cons y ys =>
      rw [levList] at h
      by_cases hxy : x = y
      · rw [if_pos hxy] at h
        rw [hxy, ih h]
      · rw [if_neg hxy] at h
        omega

theorem one_le_levenshtein {a b : String} (h : a ≠ b) : 1 ≤ levenshtein a b := by
  rw [Nat.one_le_iff_ne_zero]
  intro h0
  apply h
  unfold levenshtein at h0
  have hl := levList_eq_zero h0
  cases a
  cases b
  simp only [String.toList] at hl
  rw [hl]

theorem baseDistance_nonneg (e1 e2 : Elem) : 0 ≤ baseDistance e1 e2 := by
  unfold baseDistance
  split <;> norm_num

theorem missingAttributeDistance_nonneg (e1 e2 : Elem) :
    0 ≤ missingAttributeDistance e1 e2 := by
  unfold missingAttributeDistance
  apply List.sum_nonneg
  intro x hx
  obtain ⟨pr, _, rfl⟩ := List.mem_map.mp hx
  split <;> norm_num

theorem changedAttributeTerm_nonneg (log : ℕ → ℝ)
    (hlog : ∀ n : ℕ, 1 ≤ n → 0 ≤ log n) (e1 : Elem) (pr : String × String) :
    0 ≤ changedAttributeTerm log e1 pr := by
  unfold changedAttributeTerm
  by_cases hc : semanticAttributeNames.contains pr.1 = true
  · rw [if_pos hc]
  · rw [if_neg hc]
    by_cases hh : (!hasAttr e1 pr.1) = true
    · rw [if_pos hh]
      norm_num
    · rw [if_neg hh]
      by_cases hb : ((getAttr e1 pr.1).getD "" == pr.2) = true
      · rw [if_pos hb]
      · rw [if_neg hb]
        have hne : (getAttr e1 pr.1).getD "" ≠ pr.2 := by
          intro hEq
          exact hb (by simp [hEq])
        have h1 := hlog _ (one_le_levenshtein hne)
        linarith

theorem changedAttributeDistance_nonneg (log : ℕ → ℝ)
    (hlog : ∀ n : ℕ, 1 ≤ n → 0 ≤ log n) (e1 e2 : Elem) :
    0 ≤ changedAttributeDistance log e1 e2 := by
  unfold changedAttributeDistance
  apply List.sum_nonneg
  intro x hx
  obtain ⟨pr, _, rfl⟩ := List.mem_map.mp hx
  exact changedAttributeTerm_nonneg log hlog e1 pr

theorem positionDistanceTerm_nonneg (log : ℕ → ℝ)
    (hlog : ∀ n : ℕ, 1 ≤ n → 0 ≤ log n) (i j : ℕ) :
    0 ≤ positionDistanceTerm log i j := by
  unfold positionDistanceTerm
  split
  · rename_i hlt
    have h1 := hlog _ hlt
    linarith
  · norm_num

theorem defaultRawElementMetric_nonneg (log : ℕ → ℝ)
    (hlog : ∀ n : ℕ, 1 ≤ n → 0 ≤ log n) (e1 e2 : Elem) (i j p q : ℕ) :
    0 ≤ defaultRawElementMetric log e1 e2 i j p q := by
  unfold defaultRawElementMetric
  split
  · exact le_refl 0
  · have h1 := baseDistance_nonneg e1 e2
    have h2 := missingAttributeDistance_nonneg e1 e2
    have h3 := changedAttributeDistance_nonneg log hlog e1 e2
    have h4 := positionDistanceTerm_nonneg log hlog i j
    linarith

theorem childRow_mem (log : ℕ → ℝ) (solver : List (List ℝ) → List (ℕ × ℕ))
    (ncd : ℝ) (c1 : Elem) :
    ∀ (cs2 : List Elem) (x : ℝ), x ∈ childRow log solver ncd c1 cs2 →
      ∃ c2 ∈ cs2, x = computeElementDistance log solver ncd c1 c2 := by
  intro cs2
  induction cs2 with
  | nil =>
    intro x hx
    simp [childRow] at hx
  | cons c2 rest ih =>
    intro x hx
    rw [childRow] at hx
    rcases List.mem_cons.mp hx with rfl | hx'
    · exact ⟨c2, List.mem_cons_self c2 rest, rfl⟩
    · obtain ⟨c2', hc2', rfl⟩ := ih x hx'
      exact ⟨c2', List.mem_cons_of_mem c2 hc2', rfl⟩

theorem childMatrix_mem (log : ℕ → ℝ) (solver : List (List ℝ) → List (ℕ × ℕ))
    (ncd : ℝ) :
    ∀ (cs1 cs2 : List Elem) (row : List ℝ),
      row ∈ childMatrix log solver ncd cs1 cs2 → ∀ x ∈ row,
      ∃ c1 ∈ cs1, ∃ c2 ∈ cs2, x = computeElementDistance log solver ncd c1 c2 := by
  intro cs1
  induction cs1 with
  | nil =>
    intro cs2 row hrow
    simp [childMatrix] at hrow
  | cons c1 rest ih =>
    intro cs2 row hrow x hx
    rw [childMatrix] at hrow
    rcases List.mem_cons.mp hrow with rfl | hrow'
    · obtain ⟨c2, hc2, rfl⟩ := childRow_mem log solver ncd c1 cs2 x hx
      exact ⟨c1, List.mem_cons_self c1 rest, c2, hc2, rfl⟩
    · obtain ⟨c1', hc1', c2, hc2, rfl⟩ := ih cs2 row hrow' x hx
      exact ⟨c1', List.mem_cons_of_mem c1 hc1', c2, hc2, rfl⟩

theorem matrix_getD_nonneg (M : List (List ℝ))
    (h : ∀ row ∈ M, ∀ x ∈ row, 0 ≤ x) (i j : ℕ) :
    0 ≤ (M.getD i []).getD j 0 := by
  have hrow : M.getD i [] ∈ M ∨ M.getD i [] = [] := by
    by_cases hi : i < M.length
    · left
      rw [List.getD_eq_getElem _ _ hi]
      exact List.getElem_mem hi
    · right
      exact List.getD_eq_default _ _ (le_of_not_lt hi)
  rcases hrow with hrow | hrow
  · by_cases hj : j < (M.getD i []).length
    · rw [List.getD_eq_getElem _ _ hj]
      exact h _ hrow _ (List.getElem_mem hj)
    · rw [List.getD_eq_default _ _ (le_of_not_lt hj)]
  · rw [hrow]
    simp

theorem assignmentCost_nonneg (pairs : List (ℕ × ℕ)) (M : List (List ℝ))
    (h : ∀ row ∈ M, ∀ x ∈ row, 0 ≤ x) : 0 ≤ assignmentCost pairs M := by
  unfold assignmentCost
  apply List.sum_nonneg
  intro x hx
  obtain ⟨ij, _, rfl⟩ := List.mem_map.mp hx
  exact matrix_getD_nonneg M h ij.1 ij.2

theorem one_le_sizeOf_elem (e : Elem) : 1 ≤ sizeOf e := by
  cases e
  simp
  omega

theorem children_sizeOf_lt (e : Elem) : sizeOf e.children < sizeOf e := by
  cases e
  simp
  omega

theorem computeElementDistance_nonneg (log : ℕ → ℝ)
    (hlog : ∀ n : ℕ, 1 ≤ n → 0 ≤ log n)
    (solver : List (List ℝ) → List (ℕ × ℕ)) (ncd : ℝ) (hncd : 0 ≤ ncd) :
    ∀ e1 e2 : Elem, 0 ≤ computeElementDistance log solver ncd e1 e2 := by
  suffices h : ∀ (n : ℕ) (e1 e2 : Elem), sizeOf e1 + sizeOf e2 ≤ n →
      0 ≤ computeElementDistance log solver ncd e1 e2 by
    intro e1 e2
    exact h (sizeOf e1 + sizeOf e2) e1 e2 le_rfl
  intro n
  induction n with
  | zero =>
    intro e1 e2 hle
    have := one_le_sizeOf_elem e1
    have := one_le_sizeOf_elem e2
    omega
  | succ n ih =>
    intro e1 e2 hle
    rw [computeElementDistance_eq]
    have hraw := defaultRawElementMetric_nonneg log hlog (unMarkupRecurse e1) e2
      e1.idx e2.idx e1.siblingCount e2.siblingCount
    have hmid : 0 ≤ ncd * (Nat.dist e1.children.length e2.children.length : ℝ) :=
      mul_nonneg hncd (Nat.cast_nonneg _)
    have hchild : 0 ≤ childAlignmentCost log solver ncd e1 e2 := by
      unfold childAlignmentCost
      split
      · apply assignmentCost_nonneg
        intro row hrow x hx
        obtain ⟨c1, hc1, c2, hc2, rfl⟩ :=
          childMatrix_mem log solver ncd e1.children e2.children row hrow x hx
        apply ih
        have hs1 := List.sizeOf_lt_of_mem hc1
        have hs2 := List.sizeOf_lt_of_mem hc2
        have hc1' := children_sizeOf_lt e1
        have hc2' := children_sizeOf_lt e2
        omega
      · exact le_refl 0
    linarith

/-- C8: with the actual `Math.log`, the default raw element metric is
non-negative on every pair of elements and every positional context, and —
given a non-negative per-missing-child penalty — the subtree alignment
function returns a non-negative cost for every pair of subtrees, whatever
assignment the external solver returns. -/
theorem claim8_nonneg :
    (∀ (e1 e2 : Elem) (i j p q : ℕ),
      0 ≤ defaultRawElementMetric (fun n => Real.log n) e1 e2 i j p q)
    ∧ (∀ (solver : List (List ℝ) → List (ℕ × ℕ)) (ncd : ℝ), 0 ≤ ncd →
      ∀ e1 e2 : Elem,
        0 ≤ computeElementDistance (fun n => Real.log n) solver ncd e1 e2) := by
  have hlog : ∀ n : ℕ, 1 ≤ n → 0 ≤ Real.log n := by
    intro n hn
    apply Real.log_nonneg
    exact_mod_cast hn
  constructor
  · intro e1 e2 i j p q
    exact defaultRawElementMetric_nonneg _ hlog e1 e2 i j p q
  · intro solver ncd hncd e1 e2
    exact computeElementDistance_nonneg _ hlog solver ncd hncd e1 e2

/-- C8 witness: the default penalty 10 is non-negative, so a concrete
alignment cost is non-negative. -/
theorem claim8_nonneg_witness :
    0 ≤ computeElementDistance (fun n => Real.log n) (fun _ => []) 10
      ⟨"div", [("class", "a")], [], 0, 1⟩ ⟨"span", [], [], 1, 1⟩ :=
  claim8_nonneg.2 (fun _ => []) 10 (by norm_num) _ _

/-! ## C9 — the memoised reconciliation is a pure function of its inputs -/

theorem mem_flattenForest_self : ∀ (l : List Elem), ∀ x ∈ l, x ∈ flattenForest l := by
  intro l
  induction l using flattenForest.induct with
  | case1 =>
    intro x hx
    simp at hx
  | case2 r rs ih1 ih2 =>
    intro x hx
    rw [flattenForest]
    rcases List.mem_cons.mp hx with rfl | hx'
    · exact List.mem_cons_self _ _
    · exact List.mem_cons_of_mem _ (List.mem_append_right _ (ih2 x hx'))

theorem flattenForest_closed :
    ∀ (l : List Elem) (e : Elem), e ∈ flattenForest l →
      ∀ c ∈ e.children, c ∈ flattenForest l := by
  intro l
  induction l using flattenForest.induct with
  | case1 =>
    intro e he
    rw [flattenForest] at he
    simp at he
  | case2 r rs ih1 ih2 =>
    intro e he c hc
    rw [flattenForest] at he ⊢
    rcases List.mem_cons.mp he with rfl | he'
    · exact List.mem_cons_of_mem _
        (List.mem_append_left _ (mem_flattenForest_self e.children c hc))
    · rcases List.mem_append.mp he' with hin | hin
      · exact List.mem_cons_of_mem _ (List.mem_append_left _ (ih1 e hin c hc))
      · exact List.mem_cons_of_mem _ (List.mem_append_right _ (ih2 e hin c hc))

theorem memoSound_nil (log : ℕ → ℝ) (solver : List (List ℝ) → List (ℕ × ℕ))
    (ncd : ℝ) (E1 E2 : List Elem) :
    MemoSound log solver ncd E1 E2 [] := by
  intro a _ b _ d h
  simp [memoLookup] at h

theorem memoSound_cons (log : ℕ → ℝ) (solver : List (List ℝ) → List (ℕ × ℕ))
    (ncd : ℝ) (E1 E2 : List Elem) (memo : Memo) (e1 e2 : Elem) (d : ℝ)
    (h1 : e1 ∈ E1) (h2 : e2 ∈ E2)
    (hinj1 : ∀ a ∈ E1, ∀ b ∈ E1, a.idx = b.idx → a = b)
    (hinj2 : ∀ a ∈ E2, ∀ b ∈ E2, a.idx = b.idx → a = b)
    (hd : d = computeElementDistance log solver ncd e1 e2)
    (hm : MemoSound log solver ncd E1 E2 memo) :
    MemoSound log solver ncd E1 E2 (((e1.idx, e2.idx), d) :: memo) := by
  intro a ha b hb d' hlookup
  simp only [memoLookup] at hlookup
  by_cases hc : ((e1.idx == a.idx) && (e2.idx == b.idx)) = true
  · rw [if_pos hc] at hlookup
    have hdd : d = d' := by
      injection hlookup
    have hc' := hc
    simp only [Bool.and_eq_true] at hc'
    obtain ⟨hia, hib⟩ := hc'
    have hae : a = e1 := hinj1 a ha e1 h1 (beq_iff_eq.mp hia).symm
    have hbe : b = e2 := hinj2 b hb e2 h2 (beq_iff_eq.mp hib).symm
    rw [← hdd, hd, hae, hbe]
  · rw [if_neg hc] at hlookup
    exact hm a ha b hb d' hlookup

theorem goMemo_spec (log : ℕ → ℝ) (solver : List (List ℝ) → List (ℕ × ℕ))
    (ncd : ℝ) (E1 E2 : List Elem)
    (hcl1 : ∀ e ∈ E1, ∀ c ∈ e.children, c ∈ E1)
    (hcl2 : ∀ e ∈ E2, ∀ c ∈ e.children, c ∈ E2)
    (hinj1 : ∀ a ∈ E1, ∀ b ∈ E1, a.idx = b.idx → a = b)
    (hinj2 : ∀ a ∈ E2, ∀ b ∈ E2, a.idx = b.idx → a = b) :
    ∀ n : ℕ,
    (∀ (e1 e2 : Elem) (memo : Memo), sizeOf e1 + sizeOf e2 ≤ n →
      e1 ∈ E1 → e2 ∈ E2 → MemoSound log solver ncd E1 E2 memo →
      (goMemo log solver ncd e1 e2 memo).1
        = computeElementDistance log solver ncd e1 e2
      ∧ MemoSound log solver ncd E1 E2 (goMemo log solver ncd e1 e2 memo).2)
    ∧ (∀ (c1 : Elem) (cs2 : List Elem) (memo : Memo),
      sizeOf c1 + sizeOf cs2 ≤ n →
      c1 ∈ E1 → (∀ c ∈ cs2, c ∈ E2) → MemoSound log solver ncd E1 E2 memo →
      (goRow log solver ncd c1 cs2 memo).1 = childRow log solver ncd c1 cs2
      ∧ MemoSound log solver ncd E1 E2 (goRow log solver ncd c1 cs2 memo).2)
    ∧ (∀ (cs1 cs2 : List Elem) (memo : Memo),
      sizeOf cs1 + sizeOf cs2 ≤ n →
      (∀ c ∈ cs1, c ∈ E1) → (∀ c ∈ cs2, c ∈ E2) →
      MemoSound log solver ncd E1 E2 memo →
      (goMatrix log solver ncd cs1 cs2 memo).1
        = childMatrix log solver ncd cs1 cs2
      ∧ MemoSound log solver ncd E1 E2 (goMatrix log solver ncd cs1 cs2 memo).2) := by
  intro n
  induction n with
  | zero =>
    refine ⟨?_, ?_, ?_⟩
    · intro e1 e2 memo hle _ _ _
      have := one_le_sizeOf_elem e1
      have := one_le_sizeOf_elem e2
      omega
    · intro c1 cs2 memo hle _ _ _
      have := one_le_sizeOf_elem c1
      omega
    · intro cs1 cs2 memo hle _ _ _
      cases cs1 <;> cases cs2 <;> simp at hle
  | succ n ih =>
    obtain ⟨ihP, ihR, ihM⟩ := ih
    refine ⟨?_, ?_, ?_⟩
    · -- goMemo
      intro e1 e2 memo hle h1 h2 hm
      cases hl : memoLookup memo (e1.idx, e2.idx) with
      | some d =>
        have hd := hm e1 h1 e2 h2 d hl
        have hpair : goMemo log solver ncd e1 e2 memo = (d, memo) := by
          rw [goMemo, hl]
        rw [hpair]
        exact ⟨hd, hm⟩
      | none =>
        have hsz : sizeOf e1.children + sizeOf e2.children ≤ n := by
          have hc1 := children_sizeOf_lt e1
          have hc2 := children_sizeOf_lt e2
          omega
        by_cases hcond : (0 < e1.children.length && 0 < e2.children.length) = true
        · obtain ⟨hMeq, hMsound⟩ := ihM e1.children e2.children memo hsz
            (hcl1 e1 h1) (hcl2 e2 h2) hm
          have hval : assignmentCost
              (solver (goMatrix log solver ncd e1.children e2.children memo).1)
              (goMatrix log solver ncd e1.children e2.children memo).1
              + ncd * (Nat.dist e1.children.length e2.children.length : ℝ)
              + defaultRawElementMetric log (unMarkupRecurse e1) e2 e1.idx e2.idx
                  e1.siblingCount e2.siblingCount
              = computeElementDistance log solver ncd e1 e2 := by
            rw [hMeq, computeElementDistance_eq, childAlignmentCost, if_pos hcond]
          have hpair : goMemo log solver ncd e1 e2 memo
              = (computeElementDistance log solver ncd e1 e2,
                 ((e1.idx, e2.idx), computeElementDistance log solver ncd e1 e2)
                   :: (goMatrix log solver ncd e1.children e2.children memo).2) := by
            rw [goMemo, hl]
            simp only [hcond, if_true]
            rw [hval]
          rw [hpair]
          exact ⟨rfl, memoSound_cons log solver ncd E1 E2 _ e1 e2 _ h1 h2
            hinj1 hinj2 rfl hMsound⟩
        · have hval : (0:ℝ)
              + ncd * (Nat.dist e1.children.length e2.children.length : ℝ)
              + defaultRawElementMetric log (unMarkupRecurse e1) e2 e1.idx e2.idx
                  e1.siblingCount e2.siblingCount
              = computeElementDistance log solver ncd e1 e2 := by
            rw [computeElementDistance_eq, childAlignmentCost, if_neg hcond]
          have hpair : goMemo log solver ncd e1 e2 memo
              = (computeElementDistance log solver ncd e1 e2,
                 ((e1.idx, e2.idx), computeElementDistance log solver ncd e1 e2)
                   :: memo) := by
            rw [goMemo, hl]
            simp only [hcond, if_false, Bool.false_eq_true]
            rw [hval]
          rw [hpair]
          exact ⟨rfl, memoSound_cons log solver ncd E1 E2 _ e1 e2 _ h1 h2
            hinj1 hinj2 rfl hm⟩
    · -- goRow
      intro c1 cs2 memo hle hc1 hcs2 hm
      cases cs2 with
      | nil =>
        have hpair : goRow log solver ncd c1 [] memo = ([], memo) := by
          rw [goRow]
        rw [hpair, childRow]
        exact ⟨rfl, hm⟩
      | cons c2 rest =>
        have hszHead : sizeOf c1 + sizeOf c2 ≤ n := by
          simp only [List.cons.sizeOf_spec] at hle
          omega
        obtain ⟨hd, hs1⟩ := ihP c1 c2 memo hszHead hc1
          (hcs2 c2 (List.mem_cons_self c2 rest)) hm
        have hszRest : sizeOf c1 + sizeOf rest ≤ n := by
          simp only [List.cons.sizeOf_spec] at hle
          have := one_le_sizeOf_elem c2
          omega
        obtain ⟨hrow, hs2⟩ := ihR c1 rest (goMemo log solver ncd c1 c2 memo).2
          hszRest hc1 (fun c hc => hcs2 c (List.mem_cons_of_mem c2 hc)) hs1
        have hpair : goRow log solver ncd c1 (c2 :: rest) memo
            = ((goMemo log solver ncd c1 c2 memo).1
                :: (goRow log solver ncd c1 rest
                      (goMemo log solver ncd c1 c2 memo).2).1,
               (goRow log solver ncd c1 rest
                  (goMemo log solver ncd c1 c2 memo).2).2) := by
          rw [goRow]
        rw [hpair, childRow]
        exact ⟨by rw [hd, hrow], hs2⟩
    · -- goMatrix
      intro cs1 cs2 memo hle hcs1 hcs2 hm
      cases cs1 with
      | nil =>
        have hpair : goMatrix log solver ncd [] cs2 memo = ([], memo) := by
          rw [goMatrix]
        rw [hpair, childMatrix]
        exact ⟨rfl, hm⟩
      | cons c1 rest =>
        have hszHead : sizeOf c1 + sizeOf cs2 ≤ n := by
          simp only [List.cons.sizeOf_spec] at hle
          omega
        obtain ⟨hrow, hs1⟩ := ihR c1 cs2 memo hszHead
          (hcs1 c1 (List.mem_cons_self c1 rest)) hcs2 hm
        have hszRest : sizeOf rest + sizeOf cs2 ≤ n := by
          simp only [List.cons.sizeOf_spec] at hle
          have := one_le_sizeOf_elem c1
          omega
        obtain ⟨hmat, hs2⟩ := ihM rest cs2 (goRow log solver ncd c1 cs2 memo).2
          hszRest (fun c hc => hcs1 c (List.mem_cons_of_mem c1 hc)) hcs2 hs1
        have hpair : goMatrix log solver ncd (c1 :: rest) cs2 memo
            = ((goRow log solver ncd c1 cs2 memo).1
                :: (goMatrix log solver ncd rest cs2
                      (goRow log solver ncd c1 cs2 memo).2).1,
               (goMatrix log solver ncd rest cs2
                  (goRow log solver ncd c1 cs2 memo).2).2) := by
          rw [goMatrix]
        rw [hpair, childMatrix]
        exact ⟨by rw [hrow, hmat], hs2⟩

/-- C9: the source's `reMarkup` — whose distance matrix is computed through a
single mutable memo table created empty at the start of the call, shared by
the top-level double loop and all nested child alignments, and discarded at
the end — computes exactly the pure function `reMarkup` of its two input
strings (given that, as `indexOf` guarantees in the source, distinct elements
of each flattened list carry distinct indices).  Hence two invocations on the
same configuration return the same output and no state survives a call. -/
theorem claim9_pure_deterministic (parse : String → List Elem)
    (serialize : List Elem → String)
    (solver : List (List ℝ) → List (ℕ × ℕ)) (log : ℕ → ℝ) (ncd : ℝ)
    (original modified : String)
    (hinj1 : ((flattenForest (parse original)).map Elem.idx).Nodup)
    (hinj2 : ((flattenForest (parse modified)).map Elem.idx).Nodup) :
    reMarkupMemo parse serialize solver log ncd original modified
      = reMarkup parse serialize solver log ncd original modified := by
  have hM : (goMatrix log solver ncd (flattenForest (parse original))
      (flattenForest (parse modified)) []).1
      = childMatrix log solver ncd (flattenForest (parse original))
          (flattenForest (parse modified)) := by
    refine ((goMemo_spec log solver ncd (flattenForest (parse original))
      (flattenForest (parse modified))
      (flattenForest_closed (parse original))
      (flattenForest_closed (parse modified))
      (fun a ha b hb h => List.inj_on_of_nodup_map hinj1 ha hb h)
      (fun a ha b hb h => List.inj_on_of_nodup_map hinj2 ha hb h)
      (sizeOf (flattenForest (parse original))
        + sizeOf (flattenForest (parse modified)))).2.2
      (flattenForest (parse original)) (flattenForest (parse modified)) []
      le_rfl (fun c hc => hc) (fun c hc => hc)
      (memoSound_nil log solver ncd _ _)).1
  simp only [reMarkupMemo, reMarkup]
  split
  · rfl
  · rw [hM]

/-- C9 witness: a one-element original and a one-element edited fragment. -/
theorem claim9_pure_deterministic_witness :
    reMarkupMemo (fun _ => [⟨"div", [("class", "c")], [], 0, 1⟩])
        (fun _ => "serialized") (fun _ => [(0, 0)]) (fun n => Real.log n) 10
        "original input" "modified input"
      = reMarkup (fun _ => [⟨"div", [("class", "c")], [], 0, 1⟩])
          (fun _ => "serialized") (fun _ => [(0, 0)]) (fun n => Real.log n) 10
          "original input" "modified input" :=
  claim9_pure_deterministic _ _ _ _ _ _ _
    (by simp [flattenForest]) (by simp [flattenForest])

end ReMarkup
